import Mathlib

/-!
Verification of the product-import pipeline in `products/tasks.py`.

The pipeline reads a CSV file, normalizes and deduplicates rows by
case-folded SKU (last occurrence wins), splits the result into chunks of
`CHUNK_SIZE`, upserts each chunk into the product store, tracks progress in
a per-job key space (status, progress, message, processed, total), and
finalizes via a fan-in callback that aggregates the per-chunk counts.

Rows are modelled as association lists of header/value pairs, the store as
an association list keyed by SKU, and the per-job Redis keys as a record.
The two Redis operations performed by a batch worker (the atomic INCRBY of
`processed` and the SET of `progress`) are modelled as separate atomic
events of a small-step machine, so that interleavings of parallel workers
and re-executions caused by retries are represented faithfully.
-/

namespace Fulfil

/-- A canonical product record as built by the normalization pass:
`{'sku': ..., 'name': ..., 'description': ...}` with the SKU already
lowercased. -/
structure Rec where
  sku : String
  name : String
  description : String
deriving DecidableEq

/-- A raw CSV row as produced by `csv.DictReader`: header name to cell. -/
abbrev Row := List (String × String)

/-- Number of rows per subtask (tasks.py line 15). -/
def CHUNK_SIZE : Nat := 1000

/-- `row.get(k)`: look a header up in a raw row. -/
def rowGet (row : Row) (k : String) : Option String :=
  (row.find? (fun p => decide (p.1 = k))).map Prod.snd

/-- Python's `a or b` for an optional string `a`: both a missing key and an
empty string fall through to `b`. -/
def pyOr (a : Option String) (b : String) : String :=
  match a with
  | some s => if s = "" then b else s
  | none => b

/-- `(row.get(k1) or row.get(k2) or ... or '')`. -/
def getField (row : Row) (ks : List String) : String :=
  ks.foldr (fun k acc => pyOr (rowGet row k) acc) ""

/-- Python's `str.strip()`: remove leading and trailing whitespace. -/
def pyStrip (s : String) : String :=
  ⟨((s.data.dropWhile Char.isWhitespace).reverse.dropWhile Char.isWhitespace).reverse⟩

/-- Python's `str.lower()`: lowercase every character. -/
def pyLower (s : String) : String :=
  ⟨s.data.map Char.toLower⟩

/-- `sku_raw = (row.get('sku') or row.get('SKU') or row.get('Sku') or '').strip()`
(tasks.py line 39). -/
def skuRaw (row : Row) : String :=
  pyStrip (getField row ["sku", "SKU", "Sku"])

/-- The normalization of one raw row (tasks.py lines 39-49): an empty key
skips the row, the key is lowercased, a key equal to `"sku"` is treated as
a header-like row and skipped, and name/description are looked up under
their two recognized spellings and stripped. -/
def normRow (row : Row) : Option Rec :=
  let s := skuRaw row
  if s = "" then none
  else
    let sku := pyLower s
    if sku = "sku" then none
    else some { sku := sku
                name := pyStrip (getField row ["name", "Name"])
                description := pyStrip (getField row ["description", "Description"]) }

/-- Insertion-order-preserving update of an association list, mirroring
`unique_map[sku] = {...}` on a Python dict: an existing key keeps its
position and gets the new value, a new key is appended. -/
def updateAssoc : List (String × Rec) → String → Rec → List (String × Rec)
  | [], k, v => [(k, v)]
  | (k0, v0) :: rest, k, v =>
    if k0 = k then (k0, v) :: rest else (k0, v0) :: updateAssoc rest k v

/-- Lookup in the association list modelling the Python dict. -/
def lookupA : List (String × Rec) → String → Option Rec
  | [], _ => none
  | (k0, v) :: rest, k => if k0 = k then some v else lookupA rest k

/-- One iteration of the dedupe loop: skip invalid rows, otherwise store
the normalized record under its lowercased SKU. -/
def dedupStep (m : List (String × Rec)) (row : Row) : List (String × Rec) :=
  match normRow row with
  | none => m
  | some r => updateAssoc m r.sku r

/-- The `unique_map` dict after the dedupe loop (tasks.py lines 35-49). -/
def dedupMap (rows : List Row) : List (String × Rec) :=
  rows.foldl dedupStep []

/-- `unique_rows = list(unique_map.values())` (tasks.py line 51). -/
def dedupe (rows : List Row) : List Rec :=
  (dedupMap rows).map Prod.snd

/-- The last normalized occurrence in file order whose key is `k`; used to
specify last-write-wins deduplication. -/
def lastNormAt (rows : List Row) (k : String) : Option Rec :=
  ((rows.filterMap normRow).filter (fun r => decide (r.sku = k))).getLast?

/-- The last record with key `k` in an upsert sequence; used to specify the
net effect of a bulk upsert. -/
def lastRecAt (l : List Rec) (k : String) : Option Rec :=
  (l.filter (fun r => decide (r.sku = k))).getLast?

/-- The chunking loop of tasks.py lines 67-76, restructured as recursion
over the remaining rows: `batch` is the loop variable, a batch reaching
`n` elements is emitted, and a nonempty leftover batch is emitted at the
end. -/
def chunkAux (n : Nat) : List α → List α → List (List α)
  | batch, [] => if batch.isEmpty then [] else [batch]
  | batch, r :: rest =>
    let batch' := batch ++ [r]
    if n ≤ batch'.length then batch' :: chunkAux n [] rest
    else chunkAux n batch' rest

/-- The list of chunks dispatched for a deduplicated row list. -/
def chunkFold (n : Nat) (l : List α) : List (List α) :=
  chunkAux n [] l

/-- The per-chunk sizes of a job's work units. -/
def jobCounts (rows : List Row) : List Nat :=
  (chunkFold CHUNK_SIZE (dedupe rows)).map List.length

/-- The per-job Redis key space `job:{id}:*`. -/
structure RedisJob where
  status : String
  progress : Nat
  message : String
  processed : Nat
  total : Nat
deriving DecidableEq

/-- Master task (tasks.py lines 28-85): set the parsing keys, dedupe, fail
on an empty result, otherwise initialize the progress keys and dispatch
the chunks with a finalize callback. Returns the final key state, the
dispatched chunks, and whether the job was accepted. -/
def import_products_task (rows : List Row) (j : RedisJob) : RedisJob × List (List Rec) × Bool :=
  let j1 := { j with status := "parsing", progress := 0, message := "Parsing CSV" }
  let uniqueRows := dedupe rows
  let totalRows := uniqueRows.length
  if totalRows ≤ 0 then
    ({ j1 with status := "failed", message := "Empty file or invalid" }, [], false)
  else
    let j2 := { j1 with
      status := "processing", progress := 0,
      message := "Starting import", processed := 0, total := totalRows }
    (j2, chunkFold CHUNK_SIZE uniqueRows, true)

/-- Fan-in callback (tasks.py lines 156-163): sum the per-chunk counts,
mark the job complete with progress 100 and a completion message, and
return the total. -/
def finalize_import (results : List Nat) (j : RedisJob) : Nat × RedisJob :=
  let total_processed := results.sum
  (total_processed,
   { j with
     status := "complete", progress := 100,
     message := "Import complete (" ++ toString total_processed ++ " products)" })

/-- `max_retries=3` on the `process_batch` decorator (tasks.py line 99). -/
def PROCESS_BATCH_MAX_RETRIES : Nat := 3

/-- `countdown=2 ** self.request.retries` (tasks.py line 137): the delay
before the retry following the given number of already-performed
retries. -/
def retryCountdown (retries : Nat) : Nat :=
  2 ^ retries

/-- A stored product: the columns of `Product` touched by the pipeline
(`active` defaults to true on insert and is not an update field). -/
structure StoredProduct where
  name : String
  description : String
  active : Bool
deriving DecidableEq

/-- The product table keyed by the exact `sku` column, which carries the
unique index targeted by `ON CONFLICT`. -/
abbrev Store := List (String × StoredProduct)

/-- The row-level effect of `bulk_create(..., update_conflicts=True,
update_fields=['name', 'description'], unique_fields=['sku'])`: insert a
missing SKU with `active` defaulted to true, update only name and
description of an existing one. -/
def upsertRow : Store → Rec → Store
  | [], r => [(r.sku, { name := r.name, description := r.description, active := true })]
  | (k, v) :: rest, r =>
    if k = r.sku then
      (k, { name := r.name, description := r.description, active := v.active }) :: rest
    else (k, v) :: upsertRow rest r

/-- Lookup in the product table by SKU. -/
def lookupStore : Store → String → Option StoredProduct
  | [], _ => none
  | (k, v) :: rest, key => if k = key then some v else lookupStore rest key

/-- The store effect of one `process_batch` bulk upsert. -/
def bulkUpsert (s : Store) (batch : List Rec) : Store :=
  batch.foldl upsertRow s

/-- The store left by one whole import of `rows`: every dispatched chunk
bulk-upserted in order. -/
def runImportStore (rows : List Row) (s : Store) : Store :=
  (chunkFold CHUNK_SIZE (dedupe rows)).foldl bulkUpsert s

/-- Sequential model of a successful or failing `process_batch` run
(tasks.py lines 113-140): on success it upserts the batch, adds the batch
length to `processed`, publishes `int(processed * 100 / total_rows)` and a
message, and returns the batch length; when the store operation fails and
retries are exhausted, the final `raise` propagates the failure instead of
returning a count. -/
def process_batch (storeOk : Bool) (batch : List Rec) (total_rows : Nat)
    (s : Store) (j : RedisJob) : Except String (Nat × Store × RedisJob) :=
  if storeOk then
    let s2 := bulkUpsert s batch
    let processed := j.processed + batch.length
    Except.ok (batch.length, s2,
      { j with
        processed := processed,
        progress := processed * 100 / total_rows,
        message := "Processed " ++ toString processed ++ "/" ++ toString total_rows })
  else Except.error "batch failed"

/-- One atomic Redis operation of a batch worker (tasks.py lines 127-128):
`incr i` is worker `i`'s `INCRBY job:{id}:processed len(batch_i)`, which
atomically bumps the counter and hands the new value back to the worker;
`pub i` is worker `i`'s subsequent `SET job:{id}:progress` computed from
the value its own INCRBY returned. -/
inductive Ev where
  | incr : Nat → Ev
  | pub : Nat → Ev
deriving DecidableEq

/-- Shared job keys plus each worker's remembered INCRBY return value. -/
structure WState where
  job : RedisJob
  locals : Nat → Option Nat

/-- Small-step semantics of the two Redis operations: `counts` lists the
chunk sizes, `total` is the `total_rows` argument passed to every
worker. -/
def stepEv (counts : List Nat) (total : Nat) (s : WState) : Ev → WState
  | Ev.incr i =>
    let c := counts.getD i 0
    let p := s.job.processed + c
    { job := { s.job with processed := p },
      locals := fun n => if n = i then some p else s.locals n }
  | Ev.pub i =>
    match s.locals i with
    | some p =>
      { s with
        job := { s.job with
                 progress := p * 100 / total,
                 message := "Processed " ++ toString p ++ "/" ++ toString total } }
    | none => s

/-- Run a schedule of Redis operations. -/
def runEvs (counts : List Nat) (total : Nat) (s : WState) (evs : List Ev) : WState :=
  evs.foldl (stepEv counts total) s

/-- All states along a schedule, starting state included. -/
def stateTrace (counts : List Nat) (total : Nat) (s : WState) : List Ev → List WState
  | [] => [s]
  | e :: evs => s :: stateTrace counts total (stepEv counts total s e) evs

/-- The published `job:{id}:progress` value at every point of a run. -/
def progTrace (counts : List Nat) (total : Nat) (s : WState) (evs : List Ev) : List Nat :=
  (stateTrace counts total s evs).map (fun w => w.job.progress)

/-- The Redis operations of one complete successful attempt of unit `i`. -/
def attemptEvs (i : Nat) : List Ev :=
  [Ev.incr i, Ev.pub i]

/-- The unit a Redis operation belongs to. -/
def evUnit : Ev → Nat
  | Ev.incr i => i
  | Ev.pub i => i

/-- The subsequence of a schedule belonging to unit `i`. -/
def unitProj (sched : List Ev) (i : Nat) : List Ev :=
  sched.filter (fun e => decide (evUnit e = i))

/-- Feasible event sequences of a single unit under the task's retry
policy: at most `1 + max_retries` attempts, each attempt either running to
completion or stopping after a prefix of its operations (an exception can
strike before the INCRBY, between INCRBY and SET, or after the SET). -/
def okUnitTrace (i : Nat) (evs : List Ev) : Prop :=
  ∃ ks : List Nat, ks.length ≤ 1 + PROCESS_BATCH_MAX_RETRIES ∧
    (∀ k ∈ ks, k ≤ 2) ∧ evs = (ks.map (fun k => (attemptEvs i).take k)).flatten

/-- Schedule in which units execute serially, one completed attempt each,
in the given order. -/
def serialSched (order : List Nat) : List Ev :=
  (order.map attemptEvs).flatten

/-- The job keys right after the master task initialized them
(tasks.py lines 61-65). -/
def initJob (total : Nat) : RedisJob :=
  { status := "processing", progress := 0, message := "Starting import",
    processed := 0, total := total }

/-- Worker-visible state at the start of the parallel phase. -/
def initWState (total : Nat) : WState :=
  { job := initJob total, locals := fun _ => none }

/-- The job state after each completed unit of a serial execution. -/
def blockStates (counts : List Nat) (total : Nat) (s : WState) : List Nat → List WState
  | [] => [s]
  | i :: order =>
    s :: blockStates counts total (runEvs counts total s (attemptEvs i)) order

/-- The first row of the spec's dedup scenario: `(sku="A1", name="Widget")`. -/
def rowA : Row := [("sku", "A1"), ("name", "Widget")]

/-- The second row of the spec's dedup scenario: `(SKU="a1", Name="Widget v2")`. -/
def rowB : Row := [("SKU", "a1"), ("Name", "Widget v2")]

/-- Interleaved schedule of two successful units: both INCRBYs land before
either progress SET, and the SETs land in reverse order. -/
def cexSched : List Ev :=
  [Ev.incr 0, Ev.incr 1, Ev.pub 1, Ev.pub 0]

/-- Schedule of a single unit whose first attempt dies between its INCRBY
and its progress SET, and whose retry then runs to completion. -/
def retrySched : List Ev :=
  [Ev.incr 0, Ev.incr 0, Ev.pub 0]

/-- Schedule of two units in which unit 0's first attempt dies between its
INCRBY and its progress SET, unit 0's retry then completes, and unit 1
completes in one attempt. -/
def c5Sched : List Ev :=
  [Ev.incr 0, Ev.incr 0, Ev.pub 0, Ev.incr 1, Ev.pub 1]

/-- A mid-flight job state used to evaluate the finalizer on a partial
result list. -/
def midJob : RedisJob :=
  { status := "processing", progress := 50, message := "", processed := 5, total := 10 }


/-! ### Association-list lemmas for the dedupe dict -/

theorem lookupA_updateAssoc (l : List (String × Rec)) (k : String) (v : Rec) (k' : String) :
    lookupA (updateAssoc l k v) k' = if k = k' then some v else lookupA l k' := by
  induction l with
  | nil => simp [updateAssoc, lookupA]
  | cons p rest ih =>
    obtain ⟨k0, v0⟩ := p
    by_cases h0 : k0 = k
    · subst h0
      by_cases h1 : k0 = k' <;> simp [updateAssoc, lookupA, h1]
    · by_cases h1 : k0 = k'
      · subst h1
        have hk : ¬k = k0 := fun hh => h0 hh.symm
        simp [updateAssoc, h0, lookupA, hk]
      · simp [updateAssoc, h0, lookupA, h1, ih]

theorem fst_updateAssoc_of_mem (l : List (String × Rec)) (k : String) (v : Rec)
    (h : k ∈ l.map Prod.fst) : (updateAssoc l k v).map Prod.fst = l.map Prod.fst := by
  induction l with
  | nil => simp at h
  | cons p rest ih =>
    obtain ⟨k0, v0⟩ := p
    by_cases h0 : k0 = k
    · simp [updateAssoc, h0]
    · simp only [List.map_cons, List.mem_cons] at h
      rcases h with h | h
      · exact absurd h.symm h0
      · simp [updateAssoc, h0, ih h]

theorem fst_updateAssoc_of_not_mem (l : List (String × Rec)) (k : String) (v : Rec)
    (h : k ∉ l.map Prod.fst) : (updateAssoc l k v).map Prod.fst = l.map Prod.fst ++ [k] := by
  induction l with
  | nil => simp [updateAssoc]
  | cons p rest ih =>
    obtain ⟨k0, v0⟩ := p
    simp only [List.map_cons, List.mem_cons] at h
    push_neg at h
    have h0 : k0 ≠ k := fun hh => h.1 hh.symm
    simp [updateAssoc, fun hh => h0 hh, ih h.2]

theorem nodup_fst_updateAssoc (l : List (String × Rec)) (k : String) (v : Rec)
    (h : (l.map Prod.fst).Nodup) : ((updateAssoc l k v).map Prod.fst).Nodup := by
  by_cases hk : k ∈ l.map Prod.fst
  · rw [fst_updateAssoc_of_mem l k v hk]; exact h
  · rw [fst_updateAssoc_of_not_mem l k v hk]
    simp [List.nodup_append, h, hk]

theorem mem_updateAssoc (l : List (String × Rec)) (k : String) (v : Rec)
    (p : String × Rec) (hp : p ∈ updateAssoc l k v) : p ∈ l ∨ p = (k, v) := by
  induction l with
  | nil => simp [updateAssoc] at hp; simp [hp]
  | cons q rest ih =>
    obtain ⟨k0, v0⟩ := q
    by_cases h0 : k0 = k
    · simp only [updateAssoc, if_pos h0, List.mem_cons] at hp
      rcases hp with hp | hp
      · right; rw [hp, h0]
      · left; simp [hp]
    · simp only [updateAssoc, if_neg h0, List.mem_cons] at hp
      rcases hp with hp | hp
      · left; simp [hp]
      · rcases ih hp with h | h
        · left; simp [h]
        · right; exact h

theorem lookupA_eq_some_of_mem (l : List (String × Rec)) (k : String) (v : Rec)
    (hnd : (l.map Prod.fst).Nodup) (h : (k, v) ∈ l) : lookupA l k = some v := by
  induction l with
  | nil => simp at h
  | cons p rest ih =>
    obtain ⟨k0, v0⟩ := p
    simp only [List.map_cons, List.nodup_cons] at hnd
    rcases List.mem_cons.1 h with h1 | h1
    · cases h1
      simp [lookupA]
    · have hk0 : k0 ≠ k := by
        intro hh
        exact hnd.1 (hh ▸ (List.mem_map.2 ⟨(k, v), h1, rfl⟩))
      simp [lookupA, hk0, ih hnd.2 h1]

theorem mem_of_lookupA_eq_some (l : List (String × Rec)) (k : String) (v : Rec)
    (h : lookupA l k = some v) : (k, v) ∈ l := by
  induction l with
  | nil => simp [lookupA] at h
  | cons p rest ih =>
    obtain ⟨k0, v0⟩ := p
    by_cases h0 : k0 = k
    · simp [lookupA, h0] at h
      simp [h0, h]
    · simp only [lookupA, if_neg h0] at h
      exact List.mem_cons.2 (Or.inr (ih h))

theorem mem_of_getLast?_eq_some {l : List α} {a : α} (h : l.getLast? = some a) : a ∈ l := by
  cases l with
  | nil => simp at h
  | cons x xs =>
    rw [List.getLast?_eq_getLast _ (by simp)] at h
    exact (Option.some.injEq .. ▸ h) ▸ List.getLast_mem (by simp)

/-! ### Dedupe characterization: last occurrence wins -/

theorem dedupMap_concat (rows : List Row) (row : Row) :
    dedupMap (rows ++ [row]) = dedupStep (dedupMap rows) row := by
  simp [dedupMap, List.foldl_append]

theorem dedupMap_inv (rows : List Row) :
    ((dedupMap rows).map Prod.fst).Nodup ∧ ∀ p ∈ dedupMap rows, p.2.sku = p.1 := by
  induction rows using List.reverseRecOn with
  | nil => simp [dedupMap]
  | append_singleton rows row ih =>
    rw [dedupMap_concat]
    unfold dedupStep
    cases h : normRow row with
    | none => exact ih
    | some r =>
      refine ⟨nodup_fst_updateAssoc _ _ _ ih.1, ?_⟩
      intro p hp
      rcases mem_updateAssoc _ _ _ p hp with hmem | rfl
      · exact ih.2 p hmem
      · rfl

theorem lookupA_dedupMap (rows : List Row) (k : String) :
    lookupA (dedupMap rows) k = lastNormAt rows k := by
  induction rows using List.reverseRecOn with
  | nil => simp [dedupMap, lookupA, lastNormAt]
  | append_singleton rows row ih =>
    rw [dedupMap_concat]
    unfold dedupStep
    cases h : normRow row with
    | none =>
      rw [ih]
      unfold lastNormAt
      rw [List.filterMap_append]
      simp [h]
    | some r =>
      rw [lookupA_updateAssoc]
      unfold lastNormAt
      rw [List.filterMap_append]
      simp only [List.filterMap_cons, h, List.filterMap_nil]
      rw [List.filter_append]
      by_cases hk : r.sku = k
      · simp [hk, List.getLast?_concat]
      · rw [if_neg hk, ih]
        unfold lastNormAt
        have hnil : List.filter (fun x => decide (x.sku = k)) [r] = [] := by simp [hk]
        rw [hnil, List.append_nil]

theorem lookupA_dedupMap_self (rows : List Row) (r : Rec) (h : r ∈ dedupe rows) :
    lookupA (dedupMap rows) r.sku = some r := by
  obtain ⟨p, hp, rfl⟩ := List.mem_map.1 h
  rw [(dedupMap_inv rows).2 p hp]
  exact lookupA_eq_some_of_mem _ _ _ (dedupMap_inv rows).1
    (by obtain ⟨k0, v0⟩ := p; exact hp)

theorem mem_dedupe_of_lookupA (rows : List Row) (k : String) (r : Rec)
    (h : lookupA (dedupMap rows) k = some r) : r ∈ dedupe rows :=
  List.mem_map.2 ⟨(k, r), mem_of_lookupA_eq_some _ _ _ h, rfl⟩

theorem lastNormAt_of_mem_dedupe (rows : List Row) (r : Rec) (h : r ∈ dedupe rows) :
    lastNormAt rows r.sku = some r := by
  rw [← lookupA_dedupMap]
  exact lookupA_dedupMap_self rows r h

theorem mem_filterMap_of_mem_dedupe (rows : List Row) (r : Rec) (h : r ∈ dedupe rows) :
    r ∈ rows.filterMap normRow := by
  have h1 := lastNormAt_of_mem_dedupe rows r h
  unfold lastNormAt at h1
  exact List.mem_of_mem_filter (mem_of_getLast?_eq_some h1)

theorem dedupe_represents (rows : List Row) (r' : Rec) (h : r' ∈ rows.filterMap normRow) :
    ∃ r ∈ dedupe rows, r.sku = r'.sku := by
  have hmem : r' ∈ (rows.filterMap normRow).filter (fun r => decide (r.sku = r'.sku)) :=
    List.mem_filter.2 ⟨h, by simp⟩
  have hne : (rows.filterMap normRow).filter (fun r => decide (r.sku = r'.sku)) ≠ [] :=
    List.ne_nil_of_mem hmem
  obtain ⟨r, hr⟩ := Option.isSome_iff_exists.1 (List.getLast?_isSome.2 hne)
  have hlast : lastNormAt rows r'.sku = some r := hr
  have hfilter : r ∈ (rows.filterMap normRow).filter (fun r => decide (r.sku = r'.sku)) :=
    mem_of_getLast?_eq_some hr
  have hsku : r.sku = r'.sku := by
    have := (List.mem_filter.1 hfilter).2
    simpa using this
  refine ⟨r, ?_, hsku⟩
  exact mem_dedupe_of_lookupA rows r'.sku r ((lookupA_dedupMap rows r'.sku).symm ▸ hlast)

theorem dedupe_sku_nodup (rows : List Row) : ((dedupe rows).map Rec.sku).Nodup := by
  have h1 : (dedupe rows).map Rec.sku = (dedupMap rows).map Prod.fst := by
    unfold dedupe
    rw [List.map_map]
    exact List.map_congr_left fun p hp => (dedupMap_inv rows).2 p hp
  rw [h1]
  exact (dedupMap_inv rows).1

theorem normRow_eq_some (row : Row) (r : Rec) (h : normRow row = some r) :
    r.sku = pyLower (skuRaw row) ∧ skuRaw row ≠ "" ∧ r.sku ≠ "sku" := by
  unfold normRow at h
  by_cases h1 : skuRaw row = ""
  · simp [h1] at h
  · by_cases h2 : pyLower (skuRaw row) = "sku"
    · simp [h1, h2] at h
    · simp only [h1, h2, if_neg, if_false] at h
      cases h
      exact ⟨rfl, h1, h2⟩

theorem dedupe_sku_ne_header (rows : List Row) (r : Rec) (h : r ∈ dedupe rows) :
    r.sku ≠ "sku" := by
  obtain ⟨row, _, hn⟩ := List.mem_filterMap.1 (mem_filterMap_of_mem_dedupe rows r h)
  exact (normRow_eq_some row r hn).2.2

theorem dedupe_nil_of_all_none (rows : List Row) (h : ∀ row ∈ rows, normRow row = none) :
    dedupe rows = [] := by
  have hmap : dedupMap rows = [] := by
    induction rows using List.reverseRecOn with
    | nil => rfl
    | append_singleton rows row ih =>
      rw [dedupMap_concat]
      unfold dedupStep
      rw [h row (by simp)]
      exact ih fun rr hrr => h rr (by simp [hrr])
  simp [dedupe, hmap]

/-! ### Chunking lemmas -/

theorem chunkAux_flatten (n : Nat) (rows : List α) :
    ∀ batch : List α, (chunkAux n batch rows).flatten = batch ++ rows := by
  induction rows with
  | nil =>
    intro batch
    by_cases h : batch.isEmpty
    · simp [chunkAux, h, List.isEmpty_iff.1 h]
    · simp [chunkAux, h]
  | cons r rest ih =>
    intro batch
    simp only [chunkAux]
    by_cases h : n ≤ (batch ++ [r]).length
    · simp only [if_pos h, List.flatten_cons, ih]
      simp
    · simp only [if_neg h, ih]
      simp

theorem chunkAux_length_le (n : Nat) (rows : List α) (hn : 0 < n) :
    ∀ batch : List α, batch.length < n → ∀ c ∈ chunkAux n batch rows, c.length ≤ n := by
  induction rows with
  | nil =>
    intro batch hb c hc
    unfold chunkAux at hc
    split at hc
    · simp at hc
    · rw [List.mem_singleton] at hc
      subst hc
      omega
  | cons r rest ih =>
    intro batch hb c hc
    simp only [chunkAux] at hc
    by_cases h : n ≤ (batch ++ [r]).length
    · rw [if_pos h] at hc
      rcases List.mem_cons.1 hc with rfl | hc2
      · simp only [List.length_append, List.length_singleton]
        omega
      · exact ih [] (by simpa using hn) c hc2
    · rw [if_neg h] at hc
      exact ih (batch ++ [r]) (by simp at h ⊢; omega) c hc

theorem chunkAux_ne_nil (n : Nat) (rows : List α) :
    ∀ batch : List α, ∀ c ∈ chunkAux n batch rows, c ≠ [] := by
  induction rows with
  | nil =>
    intro batch c hc
    unfold chunkAux at hc
    split at hc
    · simp at hc
    · next hemp =>
      rw [List.mem_singleton] at hc
      subst hc
      simpa [List.isEmpty_iff] using hemp
  | cons r rest ih =>
    intro batch c hc
    simp only [chunkAux] at hc
    by_cases h : n ≤ (batch ++ [r]).length
    · rw [if_pos h] at hc
      rcases List.mem_cons.1 hc with rfl | hc2
      · simp
      · exact ih [] c hc2
    · rw [if_neg h] at hc
      exact ih (batch ++ [r]) c hc

theorem chunkAux_dropLast_length (n : Nat) (rows : List α) (hn : 0 < n) :
    ∀ batch : List α, batch.length < n →
      ∀ c ∈ (chunkAux n batch rows).dropLast, c.length = n := by
  induction rows with
  | nil =>
    intro batch hb c hc
    unfold chunkAux at hc
    split at hc
    · simp at hc
    · simp at hc
  | cons r rest ih =>
    intro batch hb c hc
    simp only [chunkAux] at hc
    by_cases h : n ≤ (batch ++ [r]).length
    · rw [if_pos h] at hc
      cases hrec : chunkAux n ([] : List α) rest with
      | nil => rw [hrec] at hc; simp at hc
      | cons y ys =>
        rw [hrec, List.dropLast_cons₂] at hc
        rcases List.mem_cons.1 hc with rfl | hc2
        · simp only [List.length_append, List.length_singleton] at h ⊢
          omega
        · have := ih [] (by simpa using hn) c
          rw [hrec] at this
          exact this hc2
    · rw [if_neg h] at hc
      exact ih (batch ++ [r]) (by simp at h ⊢; omega) c hc

theorem chunkFold_flatten (n : Nat) (l : List α) : (chunkFold n l).flatten = l := by
  simpa using chunkAux_flatten n l []

theorem chunkFold_length_le (n : Nat) (l : List α) (hn : 0 < n) :
    ∀ c ∈ chunkFold n l, c.length ≤ n :=
  chunkAux_length_le n l hn [] (by simpa using hn)

theorem chunkFold_ne_nil (n : Nat) (l : List α) : ∀ c ∈ chunkFold n l, c ≠ [] :=
  chunkAux_ne_nil n l []

theorem chunkFold_dropLast_length (n : Nat) (l : List α) (hn : 0 < n) :
    ∀ c ∈ (chunkFold n l).dropLast, c.length = n :=
  chunkAux_dropLast_length n l hn [] (by simpa using hn)

theorem chunkFold_sizes_sum (n : Nat) (l : List α) :
    ((chunkFold n l).map List.length).sum = l.length := by
  rw [← List.length_flatten, chunkFold_flatten]

/-! ### Arithmetic and sum helpers -/

theorem sum_eq_of_all_eq (l : List Nat) (a : Nat) (h : ∀ x ∈ l, x = a) :
    l.sum = l.length * a := by
  induction l with
  | nil => simp
  | cons x xs ih =>
    simp only [List.sum_cons, List.length_cons]
    rw [h x (by simp), ih fun y hy => h y (by simp [hy])]
    ring

theorem map_getD_range (l : List Nat) :
    (List.range l.length).map (fun i => l.getD i 0) = l := by
  induction l with
  | nil => simp
  | cons a t ih =>
    rw [List.length_cons, List.range_succ_eq_map, List.map_cons, List.map_map]
    refine congrArg (a :: ·) ?_
    calc (List.range t.length).map ((fun i => (a :: t).getD i 0) ∘ Nat.succ)
        = (List.range t.length).map (fun i => t.getD i 0) := by
          refine List.map_congr_left fun i _ => ?_
          simp [List.getD_cons_succ]
      _ = t := ih

theorem nodup_map_sum_le (counts : List Nat) (order : List Nat)
    (hnd : order.Nodup) (hlt : ∀ i ∈ order, i < counts.length) :
    (order.map (fun i => counts.getD i 0)).sum ≤ counts.sum := by
  have hsub : order ⊆ List.range counts.length := fun i hi =>
    List.mem_range.2 (hlt i hi)
  have hsp : List.Subperm order (List.range counts.length) :=
    List.subperm_of_subset hnd hsub
  obtain ⟨l, hperm, hsl⟩ := hsp
  calc (order.map (fun i => counts.getD i 0)).sum
      = (l.map (fun i => counts.getD i 0)).sum :=
        ((hperm.map (fun i => counts.getD i 0)).sum_eq).symm
    _ ≤ ((List.range counts.length).map (fun i => counts.getD i 0)).sum :=
        (hsl.map (fun i => counts.getD i 0)).sum_le_sum (by simp)
    _ = counts.sum := by rw [map_getD_range]

theorem div100_le_100 (p t : Nat) (hpt : p ≤ t) (ht : 0 < t) : p * 100 / t ≤ 100 := by
  have h1 : p * 100 ≤ t * 100 := Nat.mul_le_mul_right 100 hpt
  calc p * 100 / t ≤ t * 100 / t := Nat.div_le_div_right h1
    _ = 100 := by rw [Nat.mul_comm]; exact Nat.mul_div_cancel 100 ht

theorem div100_eq_100_iff (p t : Nat) (hpt : p ≤ t) (ht : 0 < t) :
    p * 100 / t = 100 ↔ p = t := by
  constructor
  · intro h
    by_contra hne
    have hlt : p < t := lt_of_le_of_ne hpt hne
    have : p * 100 / t < 100 := by
      rw [Nat.div_lt_iff_lt_mul ht]
      omega
    omega
  · rintro rfl
    rw [Nat.mul_comm]
    exact Nat.mul_div_cancel 100 ht

/-! ### Small-step lemmas for the worker event model -/

theorem serialSched_cons (i : Nat) (order : List Nat) :
    serialSched (i :: order) = Ev.incr i :: Ev.pub i :: serialSched order := by
  simp [serialSched, attemptEvs]

theorem progTrace_cons (counts : List Nat) (total : Nat) (s : WState) (e : Ev) (evs : List Ev) :
    progTrace counts total s (e :: evs) =
      s.job.progress :: progTrace counts total (stepEv counts total s e) evs := rfl

theorem progTrace_head (counts : List Nat) (total : Nat) (s : WState) (evs : List Ev) :
    (progTrace counts total s evs).head? = some s.job.progress := by
  cases evs <;> rfl

theorem runEvs_cons (counts : List Nat) (total : Nat) (s : WState) (e : Ev) (evs : List Ev) :
    runEvs counts total s (e :: evs) = runEvs counts total (stepEv counts total s e) evs := rfl

theorem mem_stateTrace_cons (counts : List Nat) (total : Nat) (s w : WState) (e : Ev)
    (evs : List Ev) :
    w ∈ stateTrace counts total s (e :: evs) ↔
      w = s ∨ w ∈ stateTrace counts total (stepEv counts total s e) evs := by
  simp [stateTrace]

theorem stepEv_incr_processed (counts : List Nat) (total : Nat) (s : WState) (i : Nat) :
    (stepEv counts total s (Ev.incr i)).job.processed = s.job.processed + counts.getD i 0 := rfl

theorem stepEv_incr_progress (counts : List Nat) (total : Nat) (s : WState) (i : Nat) :
    (stepEv counts total s (Ev.incr i)).job.progress = s.job.progress := rfl

theorem stepEv_incr_locals_self (counts : List Nat) (total : Nat) (s : WState) (i : Nat) :
    (stepEv counts total s (Ev.incr i)).locals i =
      some (s.job.processed + counts.getD i 0) := by
  simp [stepEv]

theorem stepEv_pub_progress (counts : List Nat) (total : Nat) (s : WState) (i : Nat) (p : Nat)
    (h : s.locals i = some p) :
    (stepEv counts total s (Ev.pub i)).job.progress = p * 100 / total := by
  simp [stepEv, h]

theorem stepEv_pub_processed (counts : List Nat) (total : Nat) (s : WState) (i : Nat) :
    (stepEv counts total s (Ev.pub i)).job.processed = s.job.processed := by
  cases h : s.locals i <;> simp [stepEv, h]

theorem serial_chain (counts : List Nat) (total : Nat) (order : List Nat) :
    ∀ s : WState, s.job.progress = s.job.processed * 100 / total →
      List.Chain' (· ≤ ·) (progTrace counts total s (serialSched order)) := by
  induction order with
  | nil =>
    intro s _
    simp [serialSched, progTrace, stateTrace]
  | cons i order ih =>
    intro s hI
    rw [serialSched_cons, progTrace_cons, progTrace_cons]
    have hp1 : (stepEv counts total s (Ev.incr i)).job.progress = s.job.progress :=
      stepEv_incr_progress ..
    have hp2 : (stepEv counts total (stepEv counts total s (Ev.incr i))
        (Ev.pub i)).job.progress =
        (s.job.processed + counts.getD i 0) * 100 / total :=
      stepEv_pub_progress counts total _ i _ (stepEv_incr_locals_self ..)
    have hproc2 : (stepEv counts total (stepEv counts total s (Ev.incr i))
        (Ev.pub i)).job.processed = s.job.processed + counts.getD i 0 := by
      rw [stepEv_pub_processed, stepEv_incr_processed]
    rw [List.chain'_cons]
    constructor
    · rw [hp1]
    · rw [List.chain'_cons']
      constructor
      · intro y hy
        rw [progTrace_head] at hy
        cases hy
        rw [hp1, hI, hp2]
        exact Nat.div_le_div_right (Nat.mul_le_mul_right 100 (Nat.le_add_right ..))
      · exact ih _ (by rw [hp2, hproc2])

theorem serial_processed (counts : List Nat) (total : Nat) (order : List Nat) :
    ∀ s : WState, (runEvs counts total s (serialSched order)).job.processed =
      s.job.processed + (order.map (fun i => counts.getD i 0)).sum := by
  induction order with
  | nil =>
    intro s
    simp [serialSched, runEvs]
  | cons i order ih =>
    intro s
    rw [serialSched_cons, runEvs_cons, runEvs_cons, ih]
    rw [stepEv_pub_processed, stepEv_incr_processed]
    simp [Nat.add_assoc]

theorem serial_inv (counts : List Nat) (total : Nat) (order : List Nat) :
    ∀ s : WState, s.job.progress = s.job.processed * 100 / total →
      (runEvs counts total s (serialSched order)).job.progress =
        (runEvs counts total s (serialSched order)).job.processed * 100 / total := by
  induction order with
  | nil =>
    intro s hI
    simpa [serialSched, runEvs] using hI
  | cons i order ih =>
    intro s hI
    rw [serialSched_cons, runEvs_cons, runEvs_cons]
    refine ih _ ?_
    have hp2 := stepEv_pub_progress counts total (stepEv counts total s (Ev.incr i)) i _
      (stepEv_incr_locals_self ..)
    rw [hp2, stepEv_pub_processed, stepEv_incr_processed]

theorem serial_bounded (counts : List Nat) (total : Nat) (order : List Nat) (ht : 0 < total) :
    ∀ s : WState, s.job.processed + (order.map (fun i => counts.getD i 0)).sum ≤ total →
      s.job.progress ≤ 100 →
      ∀ w ∈ stateTrace counts total s (serialSched order),
        w.job.processed ≤ total ∧ w.job.progress ≤ 100 := by
  induction order with
  | nil =>
    intro s hsum hprog w hw
    simp only [serialSched, List.map_nil, List.flatten_nil, stateTrace,
      List.mem_singleton] at hw
    subst hw
    simp only [List.map_nil, List.sum_nil, Nat.add_zero] at hsum
    exact ⟨hsum, hprog⟩
  | cons i order ih =>
    intro s hsum hprog w hw
    simp only [List.map_cons, List.sum_cons] at hsum
    rw [serialSched_cons] at hw
    rw [mem_stateTrace_cons] at hw
    rcases hw with rfl | hw
    · exact ⟨by omega, hprog⟩
    · rw [mem_stateTrace_cons] at hw
      rcases hw with rfl | hw
      · rw [stepEv_incr_processed, stepEv_incr_progress]
        exact ⟨by omega, hprog⟩
      · refine ih _ ?_ ?_ w hw
        · rw [stepEv_pub_processed, stepEv_incr_processed]
          omega
        · rw [stepEv_pub_progress counts total _ i _ (stepEv_incr_locals_self ..)]
          exact div100_le_100 _ _ (by omega) ht

theorem blockStates_inv (counts : List Nat) (total : Nat) (order : List Nat) :
    ∀ s : WState, s.job.progress = s.job.processed * 100 / total →
      ∀ w ∈ blockStates counts total s order,
        w.job.progress = w.job.processed * 100 / total := by
  induction order with
  | nil =>
    intro s hI w hw
    simp only [blockStates, List.mem_singleton] at hw
    subst hw
    exact hI
  | cons i order ih =>
    intro s hI w hw
    simp only [blockStates, List.mem_cons] at hw
    rcases hw with rfl | hw
    · exact hI
    · refine ih _ ?_ w hw
      show (runEvs counts total s (attemptEvs i)).job.progress = _
      have : runEvs counts total s (attemptEvs i) =
          stepEv counts total (stepEv counts total s (Ev.incr i)) (Ev.pub i) := rfl
      rw [this, stepEv_pub_progress counts total _ i _ (stepEv_incr_locals_self ..),
        stepEv_pub_processed, stepEv_incr_processed]

/-! ### Store lemmas: upsert effect and idempotence -/

theorem foldl_flatten_eq {f : β → α → β} (L : List (List α)) :
    ∀ b : β, L.flatten.foldl f b = L.foldl (fun acc l => l.foldl f acc) b := by
  induction L with
  | nil => intro b; rfl
  | cons l ls ih =>
    intro b
    simp only [List.flatten_cons, List.foldl_append, List.foldl_cons]
    exact ih _

theorem lookupStore_upsertRow (s : Store) (r : Rec) (k : String) :
    lookupStore (upsertRow s r) k =
      if r.sku = k then
        some { name := r.name, description := r.description,
               active := match lookupStore s k with
                         | some v => v.active
                         | none => true }
      else lookupStore s k := by
  induction s with
  | nil => by_cases h : r.sku = k <;> simp [upsertRow, lookupStore, h]
  | cons p rest ih =>
    obtain ⟨k0, v0⟩ := p
    by_cases h0 : k0 = r.sku
    · subst h0
      by_cases h1 : r.sku = k <;> simp [upsertRow, lookupStore, h1]
    · have h0s : ¬k0 = r.sku := h0
      by_cases h1 : k0 = k
      · subst h1
        have hrk : ¬r.sku = k0 := fun hh => h0 hh.symm
        simp [upsertRow, lookupStore, h0s, hrk]
      · simp [upsertRow, lookupStore, h0s, h1, ih]

theorem lastRecAt_concat (l : List Rec) (r : Rec) (k : String) :
    lastRecAt (l ++ [r]) k =
      if r.sku = k then some r else lastRecAt l k := by
  unfold lastRecAt
  rw [List.filter_append]
  by_cases h : r.sku = k
  · simp [h, List.getLast?_concat]
  · simp [h]

theorem lookupStore_foldl_upsert (l : List Rec) (s : Store) (k : String) :
    lookupStore (l.foldl upsertRow s) k =
      match lastRecAt l k with
      | some r => some { name := r.name, description := r.description,
                         active := match lookupStore s k with
                                   | some v => v.active
                                   | none => true }
      | none => lookupStore s k := by
  induction l using List.reverseRecOn with
  | nil => simp [lastRecAt]
  | append_singleton l r ih =>
    rw [List.foldl_append, List.foldl_cons, List.foldl_nil, lookupStore_upsertRow,
      lastRecAt_concat]
    by_cases hk : r.sku = k
    · rw [if_pos hk, if_pos hk, ih]
      cases h2 : lastRecAt l k <;> simp
    · rw [if_neg hk, if_neg hk, ih]

theorem runImportStore_eq (rows : List Row) (s : Store) :
    runImportStore rows s = (dedupe rows).foldl upsertRow s := by
  unfold runImportStore bulkUpsert
  rw [← foldl_flatten_eq, chunkFold_flatten]

/-! ### Claim theorems -/

/-- Claim C1: the dedupe pass keeps exactly one record per case-folded key
(the stored keys are the folded ones and are pairwise distinct), the kept
record is the last normalized occurrence in file order, deduplication
happens before partitioning (the dispatched chunks flatten back to exactly
the deduplicated list), and the two-row scenario
`[(sku="A1", name="Widget"), (SKU="a1", Name="Widget v2")]` yields exactly
one record with key `a1` and name `Widget v2`, also in the store. -/
theorem c1_dedupe_last_wins (rows : List Row) :
    ((dedupe rows).map Rec.sku).Nodup ∧
    (∀ r ∈ dedupe rows, lastNormAt rows r.sku = some r) ∧
    (∀ r' ∈ rows.filterMap normRow, ∃ r ∈ dedupe rows, r.sku = r'.sku) ∧
    (chunkFold CHUNK_SIZE (dedupe rows)).flatten = dedupe rows ∧
    dedupe [rowA, rowB] = [{ sku := "a1", name := "Widget v2", description := "" }] ∧
    runImportStore [rowA, rowB] [] =
      [("a1", { name := "Widget v2", description := "", active := true })] :=
  ⟨dedupe_sku_nodup rows, lastNormAt_of_mem_dedupe rows,
   dedupe_represents rows, chunkFold_flatten CHUNK_SIZE (dedupe rows),
   by decide, by decide⟩

/-- Claim C6: for every deduplicated record list, the partitioner emits
chunks of size at most `CHUNK_SIZE`, all chunks but possibly the last have
size exactly `CHUNK_SIZE`, and the chunks concatenate back to the input
(nothing lost or duplicated); when the list has 2500 records, exactly 3
work units are dispatched, the reported counts sum to 2500, and the
finalizer publishes progress 100. -/
theorem c6_chunking (recs : List Rec) :
    (∀ c ∈ chunkFold CHUNK_SIZE recs, c.length ≤ CHUNK_SIZE) ∧
    (∀ c ∈ (chunkFold CHUNK_SIZE recs).dropLast, c.length = CHUNK_SIZE) ∧
    (chunkFold CHUNK_SIZE recs).flatten = recs ∧
    (recs.length = 2500 →
      (chunkFold CHUNK_SIZE recs).length = 3 ∧
      ((chunkFold CHUNK_SIZE recs).map List.length).sum = 2500 ∧
      ∀ j : RedisJob,
        (finalize_import ((chunkFold CHUNK_SIZE recs).map List.length) j).2.progress = 100) := by
  have hn : 0 < CHUNK_SIZE := by norm_num [CHUNK_SIZE]
  refine ⟨chunkFold_length_le CHUNK_SIZE recs hn, chunkFold_dropLast_length CHUNK_SIZE recs hn,
    chunkFold_flatten CHUNK_SIZE recs, ?_⟩
  intro h
  have hsum : ((chunkFold CHUNK_SIZE recs).map List.length).sum = 2500 := by
    rw [chunkFold_sizes_sum, h]
  refine ⟨?_, hsum, fun j => rfl⟩
  set L := chunkFold CHUNK_SIZE recs with hL
  have hne : L ≠ [] := by
    intro hnil
    rw [hnil] at hsum
    simp at hsum
  have hsplit : L.dropLast ++ [L.getLast hne] = L := List.dropLast_append_getLast hne
  have hdrop : ∀ c ∈ L.dropLast, c.length = CHUNK_SIZE :=
    chunkFold_dropLast_length CHUNK_SIZE recs hn
  have hlastmem : L.getLast hne ∈ L := List.getLast_mem hne
  have hlast_le : (L.getLast hne).length ≤ CHUNK_SIZE :=
    chunkFold_length_le CHUNK_SIZE recs hn _ hlastmem
  have hlast_pos : 0 < (L.getLast hne).length :=
    List.length_pos.2 (chunkFold_ne_nil CHUNK_SIZE recs _ hlastmem)
  have hsum2 : (L.dropLast.map List.length).sum + (L.getLast hne).length = 2500 := by
    calc (L.dropLast.map List.length).sum + (L.getLast hne).length
        = ((L.dropLast ++ [L.getLast hne]).map List.length).sum := by
          rw [List.map_append]
          simp
      _ = (L.map List.length).sum := by rw [hsplit]
      _ = 2500 := hsum
  have hdropsum : (L.dropLast.map List.length).sum = L.dropLast.length * CHUNK_SIZE := by
    have hall := sum_eq_of_all_eq (L.dropLast.map List.length) CHUNK_SIZE (fun x hx => by
      obtain ⟨c, hc, rfl⟩ := List.mem_map.1 hx
      exact hdrop c hc)
    simpa using hall
  have hdl : L.dropLast.length = L.length - 1 := List.length_dropLast L
  have hlpos : 0 < L.length := List.length_pos.2 hne
  rw [hdropsum, hdl] at hsum2
  have hcs : CHUNK_SIZE = 1000 := rfl
  rw [hcs] at hsum2 hlast_le
  omega

/-- Witness for C6 at a concrete 2500-record input. -/
theorem c6_chunking_witness :
    (List.replicate 2500 ({ sku := "a", name := "", description := "" } : Rec)).length = 2500 ∧
    (chunkFold CHUNK_SIZE
      (List.replicate 2500 ({ sku := "a", name := "", description := "" } : Rec))).length = 3 :=
  ⟨List.length_replicate 2500 _, ((c6_chunking _).2.2.2 (List.length_replicate 2500 _)).1⟩

/-- Claim C7: if normalization discards every row (no valid key), the
master task marks the job failed with the empty-input message and
dispatches no work units. -/
theorem c7_empty_input (rows : List Row) (j : RedisJob)
    (h : ∀ row ∈ rows, normRow row = none) :
    (import_products_task rows j).1.status = "failed" ∧
    (import_products_task rows j).1.message = "Empty file or invalid" ∧
    (import_products_task rows j).2.1 = [] := by
  have hd : dedupe rows = [] := dedupe_nil_of_all_none rows h
  simp only [import_products_task, hd, List.length_nil, Nat.le_refl, if_pos]
  exact ⟨trivial, trivial, trivial⟩

/-- Witness for C7: a file whose rows have an empty key and a header-like
key respectively. -/
theorem c7_empty_input_witness :
    (∀ row ∈ [[("sku", "")], [("Sku", " sku ")]], normRow row = none) ∧
    (import_products_task [[("sku", "")], [("Sku", " sku ")]] midJob).1.status =
      "failed" :=
  ⟨by decide, (c7_empty_input [[("sku", "")], [("Sku", " sku ")]] midJob (by decide)).1⟩

/-- Claim C8: submitting the identical file twice, the second run starting
from the store state left by the first, leaves the same stored record set
as one submission: for every SKU the lookup results agree. -/
theorem c8_idempotent_upsert (rows : List Row) (s : Store) (k : String) :
    lookupStore (runImportStore rows (runImportStore rows s)) k =
      lookupStore (runImportStore rows s) k := by
  simp only [runImportStore_eq, lookupStore_foldl_upsert]
  cases h1 : lastRecAt (dedupe rows) k with
  | none => rfl
  | some r => simp

/-- Claim C10: a row whose key strips and folds to the literal `"sku"` is
discarded as header-like, no deduplicated record ever carries the key
`"sku"`, and an import leaves the store unchanged at that key. -/
theorem c10_header_like (row : Row) (rows : List Row) (s : Store)
    (h : pyLower (skuRaw row) = "sku") :
    normRow row = none ∧
    (∀ r ∈ dedupe rows, r.sku ≠ "sku") ∧
    lookupStore (runImportStore rows s) "sku" = lookupStore s "sku" := by
  refine ⟨?_, dedupe_sku_ne_header rows, ?_⟩
  · unfold normRow
    by_cases h1 : skuRaw row = ""
    · simp [h1]
    · simp [h1, h]
  · rw [runImportStore_eq, lookupStore_foldl_upsert]
    have hnone : lastRecAt (dedupe rows) "sku" = none := by
      unfold lastRecAt
      have hfil : (dedupe rows).filter (fun r => decide (r.sku = "sku")) = [] := by
        rw [List.filter_eq_nil_iff]
        intro r hr
        simpa using dedupe_sku_ne_header rows r hr
      rw [hfil]
      rfl
    rw [hnone]

/-- Witness for C10: the row `(sku=" SKU ")` strips and folds to `"sku"`
and is discarded. -/
theorem c10_header_like_witness :
    pyLower (skuRaw [("sku", " SKU ")]) = "sku" ∧ normRow [("sku", " SKU ")] = none :=
  ⟨by decide, (c10_header_like [("sku", " SKU ")] [] [] (by decide)).1⟩

/-- Counterexample to claim C5 as stated: a feasible completed run of two
work units of sizes 5 and 3 (total 8) in which unit 0's first attempt dies
between its INCRBY and its progress SET and its retry re-runs the INCRBY.
Every unit completes and reports its batch length, so the reported counts
are [5, 3] and the finalizer aggregates 8, but the Redis processed counter
ends at 13: the reported sum does not equal the Job's processed counter at
completion. -/
theorem c5_retry_overcount_cex :
    okUnitTrace 0 (unitProj c5Sched 0) ∧
    okUnitTrace 1 (unitProj c5Sched 1) ∧
    (∀ e ∈ c5Sched, evUnit e < 2) ∧
    (finalize_import [5, 3] (initWState 8).job).1 = 8 ∧
    (runEvs [5, 3] 8 (initWState 8) c5Sched).job.processed = 13 ∧
    (8 : Nat) ≠ 13 :=
  ⟨⟨[1, 2], by decide, by decide, rfl⟩, ⟨[2], by decide, by decide, rfl⟩, by decide,
   rfl, by decide, by decide⟩

/-- Claim C5 amended: for any partitioning of the deduplicated records into
work units and any completion order in which every unit's INCRBY is applied
exactly once (a serial one-attempt-per-unit execution), the processed
counter after all units ran equals the sum of the per-unit counts the
workers report, the finalizer aggregates that same sum, and the sum equals
the number of deduplicated records; a retried unit whose first attempt
failed after its INCRBY re-applies the increment, making the counter
exceed the reported sum. -/
theorem c5_partition_sum (rows : List Row) (chunks : List (List Rec)) (order : List Nat)
    (hpart : chunks.flatten = dedupe rows)
    (hperm : order.Perm (List.range chunks.length)) :
    (runEvs (chunks.map List.length) (dedupe rows).length
        (initWState (dedupe rows).length) (serialSched order)).job.processed =
      (chunks.map List.length).sum ∧
    (∀ j : RedisJob,
      (finalize_import (chunks.map List.length) j).1 = (chunks.map List.length).sum) ∧
    (chunks.map List.length).sum = (dedupe rows).length := by
  refine ⟨?_, fun j => rfl, ?_⟩
  · rw [serial_processed]
    have hinit : (initWState (dedupe rows).length).job.processed = 0 := rfl
    rw [hinit, Nat.zero_add]
    have hlen : chunks.length = (chunks.map List.length).length :=
      (List.length_map _ _).symm
    have hp2 : (order.map (fun i => (chunks.map List.length).getD i 0)).Perm
        ((List.range (chunks.map List.length).length).map
          (fun i => (chunks.map List.length).getD i 0)) := by
      apply List.Perm.map
      rw [← hlen]
      exact hperm
    rw [hp2.sum_eq, map_getD_range]
  · rw [← List.length_flatten, hpart]

/-- Witness for C5: one chunk holding the single deduplicated record of a
one-row file, completed in order `[0]`. -/
theorem c5_partition_sum_witness :
    ([[{ sku := "a1", name := "Widget", description := "" }]] :
        List (List Rec)).flatten = dedupe [rowA] ∧
    (runEvs ([[({ sku := "a1", name := "Widget", description := "" } : Rec)]].map List.length)
        (dedupe [rowA]).length (initWState (dedupe [rowA]).length)
        (serialSched [0])).job.processed =
      ([[({ sku := "a1", name := "Widget", description := "" } : Rec)]].map List.length).sum :=
  ⟨by decide,
   (c5_partition_sum [rowA] [[{ sku := "a1", name := "Widget", description := "" }]] [0]
      (by decide) (List.Perm.refl _)).1⟩

/-- Counterexample to claim C2 as stated: a feasible interleaving of two
successful work units (sizes 1000 and 1, total 1001) in which both INCRBY
operations land before either progress SET, and the SETs land in reverse
order; the published progress goes 100 and then drops to 99, so the
progress of a job is not non-decreasing. -/
theorem c2_progress_decrease_cex :
    okUnitTrace 0 (unitProj cexSched 0) ∧
    okUnitTrace 1 (unitProj cexSched 1) ∧
    (∀ e ∈ cexSched, evUnit e < 2) ∧
    progTrace [1000, 1] 1001 (initWState 1001) cexSched = [0, 0, 0, 100, 99] ∧
    ¬ List.Chain' (· ≤ ·) (progTrace [1000, 1] 1001 (initWState 1001) cexSched) := by
  have h : progTrace [1000, 1] 1001 (initWState 1001) cexSched = [0, 0, 0, 100, 99] := by
    decide
  refine ⟨⟨[2], by decide, by decide, rfl⟩, ⟨[2], by decide, by decide, rfl⟩,
    by decide, h, ?_⟩
  intro hch
  rw [h] at hch
  have h4 := (List.chain'_cons.1 (List.chain'_cons.1 (List.chain'_cons.1
    (List.chain'_cons.1 hch).2).2).2).1
  omega

/-- Claim C2 amended: the published progress is non-decreasing whenever the
work units execute serially (each unit's INCRBY and SET uninterleaved with
other units), for any set and order of distinct units; in a serial
execution progress reaches 100 exactly when the executed units' counts sum
to the job total (full success); and the finalizer, which the fan-in
barrier invokes only after every unit succeeded, always publishes progress
100. Under concurrent interleavings a stale SET can lower the published
value. -/
theorem c2_amended_serial_monotone (rows : List Row) (order : List Nat)
    (hnd : order.Nodup) (hlt : ∀ i ∈ order, i < (jobCounts rows).length)
    (hpos : 0 < (dedupe rows).length) :
    List.Chain' (· ≤ ·) (progTrace (jobCounts rows) (dedupe rows).length
      (initWState (dedupe rows).length) (serialSched order)) ∧
    ((runEvs (jobCounts rows) (dedupe rows).length (initWState (dedupe rows).length)
        (serialSched order)).job.progress = 100 ↔
      (order.map (fun i => (jobCounts rows).getD i 0)).sum = (dedupe rows).length) ∧
    (∀ results : List Nat, ∀ j : RedisJob, (finalize_import results j).2.progress = 100) := by
  have hcsum : (jobCounts rows).sum = (dedupe rows).length :=
    chunkFold_sizes_sum CHUNK_SIZE (dedupe rows)
  have hI : (initWState (dedupe rows).length).job.progress =
      (initWState (dedupe rows).length).job.processed * 100 / (dedupe rows).length := by
    simp [initWState, initJob]
  refine ⟨serial_chain _ _ order _ hI, ?_, fun results j => rfl⟩
  have hfin := serial_inv (jobCounts rows) (dedupe rows).length order _ hI
  have hproc := serial_processed (jobCounts rows) (dedupe rows).length order
    (initWState (dedupe rows).length)
  have hinit0 : (initWState (dedupe rows).length).job.processed = 0 := rfl
  rw [hinit0, Nat.zero_add] at hproc
  have hle : (order.map (fun i => (jobCounts rows).getD i 0)).sum ≤ (dedupe rows).length := by
    rw [← hcsum]
    exact nodup_map_sum_le (jobCounts rows) order hnd hlt
  rw [hfin, hproc]
  exact div100_eq_100_iff _ _ hle hpos

/-- Witness for the amended C2 at a one-record file with the single unit
executed serially. -/
theorem c2_amended_serial_monotone_witness :
    ([0] : List Nat).Nodup ∧
    List.Chain' (· ≤ ·) (progTrace (jobCounts [rowA]) (dedupe [rowA]).length
      (initWState (dedupe [rowA]).length) (serialSched [0])) :=
  ⟨by decide,
   (c2_amended_serial_monotone [rowA] [0] (by decide) (by decide) (by decide)).1⟩

/-- Counterexample to claim C3 as stated: the fan-in callback, whenever it
runs, marks the job `complete` with progress 100 even when the aggregated
results cover only part of the job (here 5 of 10 records), so the final
status never reflects that not all records were applied. -/
theorem c3_finalize_complete_cex :
    ([5] : List Nat).sum < midJob.total ∧
    (finalize_import [5] midJob).2.status = "complete" ∧
    (finalize_import [5] midJob).2.progress = 100 :=
  ⟨by decide, rfl, rfl⟩

/-- Claim C3 amended: the batch worker retries with delay
`2 ** retries` — doubling per attempt from 1 second — up to the decorator's
3 retries; when the store operation keeps failing the task raises instead
of returning a count, so the failure propagates to the fan-in coordinator
rather than dropping records silently; but the finalize callback, whenever
it runs, marks the job `complete` with progress 100 regardless of the
results, so the job's final status does not reflect a partial failure. -/
theorem c3_retry_policy_amended :
    retryCountdown 0 = 1 ∧
    (∀ n : Nat, retryCountdown (n + 1) = 2 * retryCountdown n) ∧
    PROCESS_BATCH_MAX_RETRIES = 3 ∧
    (∀ batch : List Rec, ∀ total : Nat, ∀ s : Store, ∀ j : RedisJob,
      process_batch false batch total s j = Except.error "batch failed") ∧
    (∀ results : List Nat, ∀ j : RedisJob,
      (finalize_import results j).2.status = "complete" ∧
      (finalize_import results j).2.progress = 100) := by
  refine ⟨rfl, ?_, rfl, fun _ _ _ _ => rfl, fun _ _ => ⟨rfl, rfl⟩⟩
  intro n
  rw [retryCountdown, retryCountdown, pow_succ, Nat.mul_comm]

/-- Counterexample to claim C4 as stated: a feasible trace of one work unit
of size 5 (total 5) whose first attempt dies between its INCRBY and its
progress SET; the retry re-runs the INCRBY, so processed reaches 10 > 5 =
total and the published progress is 200, above the claimed [0,100] range
(the code never clamps). -/
theorem c4_overcount_cex :
    okUnitTrace 0 (unitProj retrySched 0) ∧
    (∀ e ∈ retrySched, evUnit e < 1) ∧
    (initWState 5).job.total = 5 ∧
    (runEvs [5] 5 (initWState 5) retrySched).job.processed = 10 ∧
    5 < 10 ∧
    (runEvs [5] 5 (initWState 5) retrySched).job.progress = 200 ∧
    100 < 200 :=
  ⟨⟨[1, 2], by decide, by decide, rfl⟩, by decide, rfl, by decide, by decide, by decide,
   by decide⟩

/-- Claim C4 amended: in executions where every work unit's INCRBY is
applied at most once (distinct units, serial execution), the processed
counter never exceeds the job total and the published progress stays at
most 100 at every point of the run, and after each completed unit the
progress equals `floor(processed * 100 / total)`; a retry that re-runs an
already-applied INCRBY violates the bound. -/
theorem c4_amended_bounds (rows : List Row) (order : List Nat)
    (hnd : order.Nodup) (hlt : ∀ i ∈ order, i < (jobCounts rows).length)
    (hpos : 0 < (dedupe rows).length) :
    (∀ w ∈ stateTrace (jobCounts rows) (dedupe rows).length
        (initWState (dedupe rows).length) (serialSched order),
      w.job.processed ≤ (dedupe rows).length ∧ w.job.progress ≤ 100) ∧
    (∀ w ∈ blockStates (jobCounts rows) (dedupe rows).length
        (initWState (dedupe rows).length) order,
      w.job.progress = w.job.processed * 100 / (dedupe rows).length) := by
  have hcsum : (jobCounts rows).sum = (dedupe rows).length :=
    chunkFold_sizes_sum CHUNK_SIZE (dedupe rows)
  have hle : (order.map (fun i => (jobCounts rows).getD i 0)).sum ≤ (dedupe rows).length := by
    rw [← hcsum]
    exact nodup_map_sum_le (jobCounts rows) order hnd hlt
  constructor
  · apply serial_bounded (jobCounts rows) (dedupe rows).length order hpos
    · have hinit0 : (initWState (dedupe rows).length).job.processed = 0 := rfl
      rw [hinit0, Nat.zero_add]
      exact hle
    · exact Nat.zero_le 100
  · apply blockStates_inv
    simp [initWState, initJob]

/-- Witness for the amended C4 at a one-record file with the single unit
executed serially. -/
theorem c4_amended_bounds_witness :
    ([0] : List Nat).Nodup ∧
    (∀ w ∈ blockStates (jobCounts [rowB]) (dedupe [rowB]).length
        (initWState (dedupe [rowB]).length) [0],
      w.job.progress = w.job.processed * 100 / (dedupe [rowB]).length) :=
  ⟨by decide, (c4_amended_bounds [rowB] [0] (by decide) (by decide) (by decide)).2⟩

/-- Counterexample to claim C9 as stated: header casing is not matched
case-insensitively in general — the spelling `NAME` is not recognized, so
the same cell yields a different extracted name than the spelling `name`,
and the key spelling `sKU` is not recognized at all, discarding the row. -/
theorem c9_casing_cex :
    normRow [("sku", "a"), ("NAME", "x")] =
      some { sku := "a", name := "", description := "" } ∧
    normRow [("sku", "a"), ("name", "x")] =
      some { sku := "a", name := "x", description := "" } ∧
    ({ sku := "a", name := "", description := "" } : Rec) ≠
      { sku := "a", name := "x", description := "" } ∧
    normRow [("sKU", "a1")] = none ∧
    normRow [("SKU", "a1")] = some { sku := "a1", name := "", description := "" } :=
  ⟨by decide, by decide, by decide, by decide, by decide⟩

/-- Claim C9 amended: the key, name and description cells are extracted by
trying the fixed header spellings `sku`/`SKU`/`Sku`, `name`/`Name` and
`description`/`Description`; within those fixed sets any spelling yields
the same normalized record, other casings are not recognized, and a row
whose key extraction comes back empty is discarded. -/
theorem c9_fixed_spellings_amended :
    (∀ s ∈ (["sku", "SKU", "Sku"] : List String), ∀ v nm d : String,
      normRow [(s, v), ("name", nm), ("description", d)] =
        normRow [("sku", v), ("name", nm), ("description", d)]) ∧
    (∀ t ∈ (["name", "Name"] : List String), ∀ v nm : String,
      normRow [("sku", v), (t, nm)] = normRow [("sku", v), ("name", nm)]) ∧
    (∀ u ∈ (["description", "Description"] : List String), ∀ v d : String,
      normRow [("sku", v), (u, d)] = normRow [("sku", v), ("description", d)]) ∧
    (∀ row : Row, skuRaw row = "" → normRow row = none) := by
  refine ⟨?_, ?_, ?_, ?_⟩
  · intro s hs v nm d
    simp only [List.mem_cons, List.not_mem_nil, or_false] at hs
    rcases hs with rfl | rfl | rfl
    · rfl
    · by_cases hv : v = "" <;>
        simp [normRow, skuRaw, getField, rowGet, pyOr, List.find?, hv]
    · by_cases hv : v = "" <;>
        simp [normRow, skuRaw, getField, rowGet, pyOr, List.find?, hv]
  · intro t ht v nm
    simp only [List.mem_cons, List.not_mem_nil, or_false] at ht
    rcases ht with rfl | rfl
    · rfl
    · by_cases hn : nm = "" <;>
        simp [normRow, skuRaw, getField, rowGet, pyOr, List.find?, hn]
  · intro u hu v d
    simp only [List.mem_cons, List.not_mem_nil, or_false] at hu
    rcases hu with rfl | rfl
    · rfl
    · by_cases hdd : d = "" <;>
        simp [normRow, skuRaw, getField, rowGet, pyOr, List.find?, hdd]
  · intro row hkey
    unfold normRow
    simp [hkey]

/-- Witness for the amended C9 at the spelling `SKU`. -/
theorem c9_fixed_spellings_amended_witness :
    ("SKU" ∈ (["sku", "SKU", "Sku"] : List String)) ∧
    normRow [("SKU", "a1"), ("name", "n"), ("description", "d")] =
      normRow [("sku", "a1"), ("name", "n"), ("description", "d")] :=
  ⟨by decide, c9_fixed_spellings_amended.1 "SKU" (by decide) "a1" "n" "d"⟩

end Fulfil
